import Mathlib

/-!
Verification of the settings parser and repository-URL normalizer of
TomLBZ/GitInit (src/gitinit.py), as a shallow embedding.

Python strings are modelled as `List Char`.  The settings file is given as
its list of lines (the chunks produced by iterating over the file, without
the final newline stripping already applied; the code's `line.rstrip('\n')`
is modelled explicitly).  Python lists used as stacks (`stack`,
`indent_levels`) append and pop at the right end; we model them with the
most recent element at the HEAD of a Lean list, so the Python list is the
`reverse` of the Lean list.  Operations that raise a Python exception
(`list.pop()` on an empty list, `os.path.join()` with zero arguments) are
modelled by `Option`, `none` standing for the raised exception.
-/

namespace GitInit

/-- Characters treated as whitespace by Python's `str.strip()` /
`str.lstrip()` on the ASCII range (settings files are ASCII text). -/
def pyIsSpace (c : Char) : Bool :=
  c = ' ' || c = '\t' || c = '\n' || c = '\x0b' || c = '\x0c' || c = '\r'

/-- Python `line.strip()`: drop whitespace from both ends. -/
def pyStrip (l : List Char) : List Char :=
  ((l.dropWhile pyIsSpace).reverse.dropWhile pyIsSpace).reverse

/-- Python `line.rstrip('\n')`: drop trailing newline characters. -/
def rstripNl (l : List Char) : List Char :=
  (l.reverse.dropWhile (fun c => c = '\n')).reverse

/-- Length of `s.expandtabs(4)` (CPython semantics): a tab advances the
column to the next multiple of 4 and contributes that many characters; a
newline or carriage return resets the column counter; every other
character contributes one column.  Arguments: accumulated length,
current column, remaining characters. -/
def expandtabsLen : Nat → Nat → List Char → Nat
  | len, _, [] => len
  | len, col, c :: cs =>
    if c = '\t' then
      expandtabsLen (len + (4 - col % 4)) (col + (4 - col % 4)) cs
    else if c = '\n' || c = '\r' then expandtabsLen (len + 1) 0 cs
    else expandtabsLen (len + 1) (col + 1) cs

/-- Python `git_url[:-4]`-style slicing: drop the last `n` characters. -/
def pyDropRight (n : Nat) (l : List Char) : List Char :=
  l.take (l.length - n)

/-- Python `s.split(sep)` for a one-character separator: split at every
occurrence, keeping empty pieces; the result is never empty. -/
def splitChar (sep : Char) : List Char → List (List Char)
  | [] => [[]]
  | c :: cs =>
    if c = sep then [] :: splitChar sep cs
    else
      match splitChar sep cs with
      | [] => [[c]]
      | r :: rs => (c :: r) :: rs

/-- Python `s.split(sep)[-1]`. -/
def lastSeg (sep : Char) (l : List Char) : List Char :=
  (splitChar sep l).getLastD []

/-- `get_repo_name` (src/gitinit.py lines 10-16): strip a trailing
`.git`, take the last `/`-segment, and if a `:` remains take the last
`:`-segment. -/
def get_repo_name (git_url : List Char) : List Char :=
  let g := if (".git".toList).isSuffixOf git_url then pyDropRight 4 git_url else git_url
  let repo_name := lastSeg '/' g
  if ':' ∈ repo_name then lastSeg ':' repo_name else repo_name

/-- `os.path.join` (posixpath) of two components. -/
def joinTwo (path b : List Char) : List Char :=
  if b.head? = some '/' then b
  else if path = [] ∨ path.getLast? = some '/' then path ++ b
  else path ++ '/' :: b

/-- `os.path.join(*parts)`; `none` models the `TypeError` raised when
there are zero arguments. -/
def osJoin : List (List Char) → Option (List Char)
  | [] => none
  | a :: p => some (p.foldl joinTwo a)

/-- `os.path.join(*parts)` on a list known to be nonempty (junk value
`[]` on the empty list). -/
def joinNE : List (List Char) → List Char
  | [] => []
  | a :: p => p.foldl joinTwo a

/-- `os.path.expanduser` (posixpath), with the process environment
abstracted into `userhome`: `userhome []` is the home directory of the
current user (`$HOME`, falling back to the password database) and
`userhome name` the home directory of user `name`; `none` models the
lookup failing, in which case the path is returned unchanged. -/
def expanduser (userhome : List Char → Option (List Char)) (path : List Char) : List Char :=
  if path.head? = some '~' then
    let i := 1 + (path.drop 1).findIdx (fun c => c = '/')
    match userhome ((path.drop 1).take (i - 1)) with
    | none => path
    | some uh =>
      let r := (uh.reverse.dropWhile (fun c => c = '/')).reverse ++ path.drop i
      if r = [] then ['/'] else r
  else path

/-- A repository descriptor: one element of the `git_repos` list built by
`get_dirs_and_repos_from_settings` (the Python dict with keys `path` and
`git_url`). -/
structure RepoDescriptor where
  path : List Char
  git_url : List Char
deriving DecidableEq, Repr

/-- The mutable state of the parser loop in
`get_dirs_and_repos_from_settings`: `dirs_to_create`, `git_repos`,
`stack` and `indent_levels`.  `stack` and `indent_levels` hold their
most recently appended element at the head (Python's list end). -/
structure ParseState where
  dirs_to_create : Finset (List Char)
  git_repos : List RepoDescriptor
  stack : List (List Char)
  indent_levels : List Nat
deriving DecidableEq

/-- The parser's state before the first line. -/
def initState : ParseState := ⟨∅, [], [], []⟩

/-- The trimmed content of a raw line: `line.rstrip('\n').strip()`. -/
def lineContent (l : List Char) : List Char := pyStrip (rstripNl l)

/-- The line's indentation width: length of the leading whitespace of
`line.rstrip('\n')` after `expandtabs(4)`. -/
def indentLen (l : List Char) : Nat :=
  expandtabsLen 0 0 ((rstripNl l).takeWhile pyIsSpace)

/-- Whether a raw line is blank (`not line.strip()` after the newline
strip). -/
def isBlankLine (l : List Char) : Bool := (lineContent l).isEmpty

/-- The repository-leaf test of line 153: the content ends with `.git`
and starts with `git@` or `https://`. -/
def isRepoLeaf (content : List Char) : Bool :=
  (".git".toList).isSuffixOf content &&
    ((("git@".toList).isPrefixOf content) || (("https://".toList).isPrefixOf content))

/-- The dedent loop of lines 142-144:
`while indent_levels and indent_length < indent_levels[-1]:
indent_levels.pop(); stack.pop()`.  `none` models the `IndexError`
raised by `stack.pop()` on an empty list. -/
def popWhileLess (w : Nat) : List Nat → List (List Char) → Option (List Nat × List (List Char))
  | [], sk => some ([], sk)
  | t :: ls, sk =>
    if w < t then
      match sk with
      | [] => none
      | _ :: sk' => popWhileLess w ls sk'
    else some (t :: ls, sk)

/-- The indent-level update of lines 134-147: first line pushes its
width; a strictly larger width is pushed; otherwise the dedent loop pops
level/stack pairs and, when the final width matches no remaining level,
the new width is appended as a fresh level.  Returns the updated
`indent_levels` together with the (possibly popped) `stack`; `none`
models the `IndexError` from the paired `stack.pop()`. -/
def updateLevels (w : Nat) (levels : List Nat) (sk : List (List Char)) :
    Option (List Nat × List (List Char)) :=
  match levels with
  | [] => some ([w], sk)
  | t :: ls =>
    if w > t then some (w :: t :: ls, sk)
    else
      match popWhileLess w (t :: ls) sk with
      | none => none
      | some (ls', sk') =>
        match ls' with
        | [] => some ([], sk')
        | t' :: _ => if w ≠ t' then some (w :: ls', sk') else some (ls', sk')

/-- Lines 149-169: trim the stack to one below the number of indent
levels (`while len(stack) > len(indent_levels) - 1: stack.pop()`), push
the content, and classify it.  When `levels'` is empty, Python's
`len(indent_levels) - 1` is `-1`, so the trimming loop pops the whole
stack and then raises `IndexError`: modelled by `none`.  A repository
leaf joins the ancestor segments (`os.path.join(*stack[:-1])`, a
`TypeError` when there are none), a directory joins the whole stack. -/
def finishLine (userhome : List Char → Option (List Char)) (st : ParseState)
    (content : List Char) (levels' : List Nat) (stack₀ : List (List Char)) :
    Option ParseState :=
  match levels' with
  | [] => none
  | _ :: _ =>
    let stack₁ := stack₀.drop (stack₀.length - (levels'.length - 1))
    let stack₂ := content :: stack₁
    if isRepoLeaf content then
      match osJoin stack₁.reverse with
      | none => none
      | some p =>
        let path := expanduser userhome p
        some ⟨insert path st.dirs_to_create, st.git_repos ++ [⟨path, content⟩],
              stack₂, levels'⟩
    else
      match osJoin stack₂.reverse with
      | none => none
      | some p =>
        let path := expanduser userhome p
        some ⟨insert path st.dirs_to_create, st.git_repos, stack₂, levels'⟩

/-- One iteration of the parser loop of `get_dirs_and_repos_from_settings`
(lines 126-169) on a single raw line.  `none` models an uncaught Python
exception during the iteration. -/
def processLine (userhome : List Char → Option (List Char)) (st : ParseState)
    (rawLine : List Char) : Option ParseState :=
  if isBlankLine rawLine then some st
  else
    match updateLevels (indentLen rawLine) st.indent_levels st.stack with
    | none => none
    | some (levels', stack₀) => finishLine userhome st (lineContent rawLine) levels' stack₀

/-- The fold of `processLine` over the file's lines, starting from the
empty parser state. -/
def parseFold (userhome : List Char → Option (List Char))
    (lines : List (List Char)) : Option ParseState :=
  List.foldlM (processLine userhome) initState lines

/-- `get_dirs_and_repos_from_settings` (lines 119-170): the settings file
given as its list of lines; returns the pair `(dirs_to_create, git_repos)`
or `none` if the Python function raises. -/
def get_dirs_and_repos_from_settings (userhome : List Char → Option (List Char))
    (lines : List (List Char)) : Option (Finset (List Char) × List RepoDescriptor) :=
  (parseFold userhome lines).map (fun st => (st.dirs_to_create, st.git_repos))

/-- The parser's structural invariant: the indent widths on
`indent_levels` are strictly decreasing from the head (in Python order:
strictly increasing from the stack's base to its top), and `stack` and
`indent_levels` have the same length. -/
def StackInv (st : ParseState) : Prop :=
  List.Chain' (fun a b => a > b) st.indent_levels ∧
    st.stack.length = st.indent_levels.length

/-- For a purely nested (strictly deeper and deeper) tail of the file:
the directory path registered by each line, given the ancestor chain
`pref` accumulated so far (in root-to-leaf order).  A directory line
registers the join of `pref` plus itself; a repository leaf registers the
join of `pref` alone. -/
def chainPaths (userhome : List Char → Option (List Char)) :
    List (List Char) → List (List Char) → List (List Char)
  | _, [] => []
  | pref, l :: ls =>
    let c := lineContent l
    if isRepoLeaf c then
      expanduser userhome (joinNE pref) :: chainPaths userhome (pref ++ [c]) ls
    else
      expanduser userhome (joinNE (pref ++ [c])) :: chainPaths userhome (pref ++ [c]) ls

/-- For a purely nested tail of the file: the repository descriptors
emitted, with parent path the join of the ancestor chain excluding the
leaf. -/
def chainRepos (userhome : List Char → Option (List Char)) :
    List (List Char) → List (List Char) → List RepoDescriptor
  | _, [] => []
  | pref, l :: ls =>
    let c := lineContent l
    if isRepoLeaf c then
      ⟨expanduser userhome (joinNE pref), c⟩ :: chainRepos userhome (pref ++ [c]) ls
    else chainRepos userhome (pref ++ [c]) ls

lemma splitChar_ne_nil (sep : Char) (l : List Char) : splitChar sep l ≠ [] := by
  cases l with
  | nil => simp [splitChar]
  | cons c cs =>
    simp only [splitChar]
    split
    · simp
    · split <;> simp

lemma getLastD_irrel {α : Type} {l : List α} (h : l ≠ []) (a b : α) :
    l.getLastD a = l.getLastD b := by
  cases l with
  | nil => exact absurd rfl h
  | cons x t => rw [List.getLastD_cons, List.getLastD_cons]

lemma not_mem_lastSeg (sep : Char) : ∀ l : List Char, sep ∉ lastSeg sep l := by
  intro l
  induction l with
  | nil => simp [lastSeg, splitChar]
  | cons c cs ih =>
    by_cases hc : c = sep
    · unfold lastSeg at ih ⊢
      simp only [splitChar]
      rw [if_pos hc, List.getLastD_cons]
      exact ih
    · unfold lastSeg at ih ⊢
      simp only [splitChar, if_neg hc]
      cases hs : splitChar sep cs with
      | nil => exact absurd hs (splitChar_ne_nil _ _)
      | cons r rs =>
        rw [hs] at ih
        cases rs with
        | nil =>
          simp only [List.getLastD_cons, List.getLastD_nil] at ih ⊢
          intro h
          rcases List.mem_cons.mp h with h1 | h1
          · exact hc h1.symm
          · exact ih h1
        | cons y t =>
          simp only [List.getLastD_cons] at ih ⊢
          exact ih

lemma mem_of_mem_lastSeg (sep x : Char) : ∀ l : List Char, x ∈ lastSeg sep l → x ∈ l := by
  intro l
  induction l with
  | nil => simp [lastSeg, splitChar]
  | cons c cs ih =>
    by_cases hc : c = sep
    · unfold lastSeg at ih ⊢
      simp only [splitChar]
      rw [if_pos hc, List.getLastD_cons]
      intro h
      exact List.mem_cons_of_mem _ (ih h)
    · unfold lastSeg at ih ⊢
      simp only [splitChar, if_neg hc]
      cases hs : splitChar sep cs with
      | nil => exact absurd hs (splitChar_ne_nil _ _)
      | cons r rs =>
        rw [hs] at ih
        cases rs with
        | nil =>
          simp only [List.getLastD_cons, List.getLastD_nil] at ih ⊢
          intro h
          rcases List.mem_cons.mp h with h1 | h1
          · simp [h1]
          · exact List.mem_cons_of_mem _ (ih h1)
        | cons y t =>
          simp only [List.getLastD_cons] at ih ⊢
          intro h
          exact List.mem_cons_of_mem _ (ih h)

lemma splitChar_of_not_mem {sep : Char} : ∀ {l : List Char}, sep ∉ l → splitChar sep l = [l] := by
  intro l
  induction l with
  | nil => intro _; rfl
  | cons c cs ih =>
    intro h
    have hc : ¬ c = sep := fun e => h (by simp [e])
    have hcs : sep ∉ cs := fun e => h (List.mem_cons_of_mem _ e)
    simp only [splitChar, if_neg hc, ih hcs]

lemma lastSeg_of_not_mem {sep : Char} {l : List Char} (h : sep ∉ l) : lastSeg sep l = l := by
  unfold lastSeg
  rw [splitChar_of_not_mem h]
  rfl

lemma get_repo_name_no_sep (s : List Char) :
    '/' ∉ get_repo_name s ∧ ':' ∉ get_repo_name s := by
  unfold get_repo_name
  by_cases h : ':' ∈ lastSeg '/' (if (".git".toList).isSuffixOf s then pyDropRight 4 s else s)
  · simp only [if_pos h]
    exact ⟨fun hm => not_mem_lastSeg '/' _ (mem_of_mem_lastSeg ':' '/' _ hm),
           not_mem_lastSeg ':' _⟩
  · simp only [if_neg h]
    exact ⟨not_mem_lastSeg '/' _, h⟩

/-- C9: for every input, the name returned by `get_repo_name` contains no
path separator `/`, no `:` and hence no `https://` prefix, and the
function is deterministic (equal outputs on equal inputs). -/
theorem repo_name_no_separators (s : List Char) :
    '/' ∉ get_repo_name s ∧ ':' ∉ get_repo_name s ∧
      ¬ (("https://".toList) <+: get_repo_name s) ∧
      get_repo_name s = get_repo_name s := by
  obtain ⟨h1, h2⟩ := get_repo_name_no_sep s
  exact ⟨h1, h2, fun hp => h2 (hp.subset (by decide)), rfl⟩

theorem repo_name_no_separators_witness :
    '/' ∉ get_repo_name ("git@github.com:user/Example.git".toList) ∧
      ':' ∉ get_repo_name ("git@github.com:user/Example.git".toList) ∧
      ¬ (("https://".toList) <+: get_repo_name ("git@github.com:user/Example.git".toList)) ∧
      get_repo_name ("git@github.com:user/Example.git".toList) =
        get_repo_name ("git@github.com:user/Example.git".toList) :=
  repo_name_no_separators _

/-- C2 (amended): `get_repo_name` is idempotent on every input whose
normalized name does not itself end in `.git`; when it does (e.g. input
`a.git.git`), the second application strips another `.git`. -/
theorem repo_name_idem_of_no_git_suffix (s : List Char)
    (h : (".git".toList).isSuffixOf (get_repo_name s) = false) :
    get_repo_name (get_repo_name s) = get_repo_name s := by
  obtain ⟨h1, h2⟩ := get_repo_name_no_sep s
  conv_lhs => rw [get_repo_name]
  simp only [h, Bool.false_eq_true, if_false]
  rw [lastSeg_of_not_mem h1, if_neg h2]

/-- C2 (counterexample): normalizing `a.git.git` gives `a.git`, and
normalizing again gives `a`, so `get_repo_name` is not idempotent. -/
theorem repo_name_not_idempotent :
    ¬ (get_repo_name (get_repo_name ("a.git.git".toList)) =
        get_repo_name ("a.git.git".toList)) := by
  decide

theorem repo_name_idem_witness :
    (".git".toList).isSuffixOf (get_repo_name ("https://git.addr/example2.git".toList)) = false ∧
      get_repo_name (get_repo_name ("https://git.addr/example2.git".toList)) =
        get_repo_name ("https://git.addr/example2.git".toList) :=
  ⟨by decide, repo_name_idem_of_no_git_suffix _ (by decide)⟩

/-- C10: `get_repo_name` maps `git@github.com:user/Example.git` to
`Example` and `https://git.addr/example2.git` to `example2`. -/
theorem repo_name_examples :
    get_repo_name ("git@github.com:user/Example.git".toList) = ("Example".toList) ∧
      get_repo_name ("https://git.addr/example2.git".toList) = ("example2".toList) := by
  decide

/-- C3: the four-line settings file `proj` / four-space-indented
`https://git.addr/example2.git` / four-space-indented `sub` /
eight-space-indented `git@host:team/child.git` parses to the directory
set `{proj, proj/sub}` (a `Finset`, written here in insertion order) and
exactly the two descriptors `(proj, https://git.addr/example2.git)` and
`(proj/sub, git@host:team/child.git)` in that order, for every
environment `uh`. -/
theorem settings_example_parse (uh : List Char → Option (List Char)) :
    get_dirs_and_repos_from_settings uh
      [("proj".toList), ("    https://git.addr/example2.git".toList), ("    sub".toList),
       ("        git@host:team/child.git".toList)] =
    some ({("proj".toList), ("proj/sub".toList)},
          [⟨("proj".toList), ("https://git.addr/example2.git".toList)⟩,
           ⟨("proj/sub".toList), ("git@host:team/child.git".toList)⟩]) := by
  have h : ({("proj".toList), ("proj/sub".toList)} : Finset (List Char)) =
      {("proj/sub".toList), ("proj".toList)} := by decide
  rw [h]
  exact rfl

lemma processLine_blank {uh : List Char → Option (List Char)} {st : ParseState}
    {l : List Char} (h : isBlankLine l = true) : processLine uh st l = some st := by
  unfold processLine
  rw [if_pos h]

lemma parseFold_filter (uh : List Char → Option (List Char)) :
    ∀ (lines : List (List Char)) (st : ParseState),
      List.foldlM (processLine uh) st lines =
        List.foldlM (processLine uh) st (lines.filter (fun l => !(isBlankLine l))) := by
  intro lines
  induction lines with
  | nil => intro st; rfl
  | cons l ls ih =>
    intro st
    by_cases hb : isBlankLine l = true
    · have hf : (l :: ls).filter (fun l => !(isBlankLine l)) =
          ls.filter (fun l => !(isBlankLine l)) := by
        simp [List.filter_cons, hb]
      rw [hf, List.foldlM_cons, processLine_blank hb]
      exact ih st
    · have hf : (l :: ls).filter (fun l => !(isBlankLine l)) =
          l :: ls.filter (fun l => !(isBlankLine l)) := by
        simp [List.filter_cons, hb]
      rw [hf, List.foldlM_cons, List.foldlM_cons]
      cases hp : processLine uh st l with
      | none => rfl
      | some st' => exact ih st'

/-- C8: blank lines never affect the parse: any two line lists with the
same non-blank lines (in order) fold to the same parser state and yield
the same `(dirs_to_create, git_repos)` result; in particular inserting
or removing blank lines anywhere changes nothing. -/
theorem blank_lines_ignored (uh : List Char → Option (List Char))
    (lines₁ lines₂ : List (List Char))
    (h : lines₁.filter (fun l => !(isBlankLine l)) =
          lines₂.filter (fun l => !(isBlankLine l))) :
    parseFold uh lines₁ = parseFold uh lines₂ ∧
      get_dirs_and_repos_from_settings uh lines₁ =
        get_dirs_and_repos_from_settings uh lines₂ := by
  have e : parseFold uh lines₁ = parseFold uh lines₂ := by
    unfold parseFold
    rw [parseFold_filter uh lines₁ initState, parseFold_filter uh lines₂ initState, h]
  refine ⟨e, ?_⟩
  unfold get_dirs_and_repos_from_settings
  rw [e]

theorem blank_lines_ignored_witness :
    ([("a".toList), ("".toList)] : List (List Char)).filter (fun l => !(isBlankLine l)) =
        ([("a".toList)] : List (List Char)).filter (fun l => !(isBlankLine l)) ∧
      (parseFold (fun _ => none) [("a".toList), ("".toList)] =
          parseFold (fun _ => none) [("a".toList)] ∧
        get_dirs_and_repos_from_settings (fun _ => none) [("a".toList), ("".toList)] =
          get_dirs_and_repos_from_settings (fun _ => none) [("a".toList)]) :=
  ⟨by decide, blank_lines_ignored _ _ _ (by decide)⟩

/-- C4: if the first non-blank line of the settings file is itself a
repository leaf, `get_dirs_and_repos_from_settings` raises
(`os.path.join()` is called with the empty list of ancestor segments, a
`TypeError`) instead of returning a descriptor with an empty parent
path. -/
theorem first_line_leaf_raises (uh : List Char → Option (List Char))
    (blanks : List (List Char)) (line : List Char) (rest : List (List Char))
    (hb : ∀ b ∈ blanks, isBlankLine b = true)
    (hl : isBlankLine line = false)
    (hr : isRepoLeaf (lineContent line) = true) :
    get_dirs_and_repos_from_settings uh (blanks ++ line :: rest) = none := by
  have h1 : List.foldlM (processLine uh) initState blanks = some initState := by
    induction blanks with
    | nil => rfl
    | cons b bs ih =>
      rw [List.foldlM_cons, processLine_blank (hb b (by simp))]
      exact ih (fun x hx => hb x (by simp [hx]))
  have h2 : processLine uh initState line = none := by
    unfold processLine
    simp [hl, hr, initState, osJoin, updateLevels, finishLine]
  unfold get_dirs_and_repos_from_settings parseFold
  rw [List.foldlM_append, h1]
  show (List.foldlM (processLine uh) initState (line :: rest)).map _ = none
  rw [List.foldlM_cons, h2]
  rfl

theorem first_line_leaf_raises_witness :
    (∀ b ∈ ([] : List (List Char)), isBlankLine b = true) ∧
      isBlankLine ("git@h:a/b.git".toList) = false ∧
      isRepoLeaf (lineContent ("git@h:a/b.git".toList)) = true ∧
      get_dirs_and_repos_from_settings (fun _ => none)
        ([] ++ ("git@h:a/b.git".toList) :: []) = none :=
  ⟨by simp, by decide, by decide,
    first_line_leaf_raises _ _ _ _ (by simp) (by decide) (by decide)⟩

/-- C5: a non-blank line is recorded as a repository descriptor (with
the line's trimmed content as its URL) exactly when its trimmed content
ends with `.git` and starts with `git@` or `https://`; any other
non-blank line leaves `git_repos` unchanged and registers a directory
path instead. -/
theorem leaf_classification (uh : List Char → Option (List Char))
    (st st' : ParseState) (l : List Char)
    (hb : isBlankLine l = false) (h : processLine uh st l = some st') :
    (isRepoLeaf (lineContent l) = true →
      ∃ p, st'.git_repos = st.git_repos ++ [⟨p, lineContent l⟩] ∧
        st'.dirs_to_create = insert p st.dirs_to_create) ∧
    (isRepoLeaf (lineContent l) = false →
      st'.git_repos = st.git_repos ∧
        ∃ p, st'.dirs_to_create = insert p st.dirs_to_create) := by
  unfold processLine at h
  rw [if_neg (by simp [hb])] at h
  cases hu : updateLevels (indentLen l) st.indent_levels st.stack with
  | none => rw [hu] at h; exact absurd h (by simp)
  | some q =>
    obtain ⟨lv, sk⟩ := q
    rw [hu] at h
    dsimp only at h
    cases lv with
    | nil => exact absurd h (by simp [finishLine])
    | cons t ls =>
      unfold finishLine at h
      dsimp only at h
      by_cases hleaf : isRepoLeaf (lineContent l) = true
      · rw [if_pos hleaf] at h
        constructor
        · intro _
          cases hj : osJoin (sk.drop (sk.length - ((t :: ls).length - 1))).reverse with
          | none => rw [hj] at h; exact absurd h (by simp)
          | some p =>
            rw [hj] at h
            cases h
            exact ⟨_, rfl, rfl⟩
        · intro hf
          rw [hleaf] at hf
          exact absurd hf (by simp)
      · rw [if_neg hleaf] at h
        constructor
        · intro ht
          exact absurd ht hleaf
        · intro _
          cases hj : osJoin ((lineContent l :: sk.drop (sk.length - ((t :: ls).length - 1))).reverse) with
          | none => rw [hj] at h; exact absurd h (by simp)
          | some p =>
            rw [hj] at h
            cases h
            exact ⟨rfl, _, rfl⟩

theorem leaf_classification_witness :
    isBlankLine ("a".toList) = false ∧
      processLine (fun _ => none : List Char → Option (List Char)) initState ("a".toList) =
        some ⟨{("a".toList)}, [], [("a".toList)], [0]⟩ ∧
      ((isRepoLeaf (lineContent ("a".toList)) = true →
        ∃ p, (⟨{("a".toList)}, [], [("a".toList)], [0]⟩ : ParseState).git_repos =
            initState.git_repos ++ [⟨p, lineContent ("a".toList)⟩] ∧
          (⟨{("a".toList)}, [], [("a".toList)], [0]⟩ : ParseState).dirs_to_create =
            insert p initState.dirs_to_create) ∧
      (isRepoLeaf (lineContent ("a".toList)) = false →
        (⟨{("a".toList)}, [], [("a".toList)], [0]⟩ : ParseState).git_repos =
            initState.git_repos ∧
          ∃ p, (⟨{("a".toList)}, [], [("a".toList)], [0]⟩ : ParseState).dirs_to_create =
            insert p initState.dirs_to_create)) :=
  ⟨by decide, by decide,
    leaf_classification (fun _ => none : List Char → Option (List Char)) initState
      ⟨{("a".toList)}, [], [("a".toList)], [0]⟩ ("a".toList) (by decide) (by decide)⟩

lemma popWhileLess_spec (w : Nat) : ∀ (ls : List Nat) (sk : List (List Char)),
    ls.length = sk.length →
    ∃ k, popWhileLess w ls sk = some (ls.drop k, sk.drop k) ∧
      (∀ x ∈ ls.take k, w < x) ∧
      (∀ t, (ls.drop k).head? = some t → t ≤ w) := by
  intro ls
  induction ls with
  | nil =>
    intro sk _
    exact ⟨0, rfl, by simp, by simp⟩
  | cons t ls ih =>
    intro sk h
    by_cases hw : w < t
    · cases sk with
      | nil => simp at h
      | cons s sk' =>
        have h' : ls.length = sk'.length := by simpa using h
        obtain ⟨k, hk, htake, hhead⟩ := ih sk' h'
        refine ⟨k + 1, ?_, ?_, ?_⟩
        · simpa [popWhileLess, hw] using hk
        · intro x hx
          rw [List.take_succ_cons] at hx
          rcases List.mem_cons.mp hx with h1 | h1
          · exact h1 ▸ hw
          · exact htake x h1
        · intro t' ht'
          rw [List.drop_succ_cons] at ht'
          exact hhead t' ht'
    · refine ⟨0, ?_, by simp, ?_⟩
      · simp [popWhileLess, hw]
      · intro t' ht'
        simp only [List.drop_zero, List.head?_cons, Option.some.injEq] at ht'
        omega

lemma getLast?_drop_ne_nil {α : Type} : ∀ (k : Nat) (l : List α), l.drop k ≠ [] →
    (l.drop k).getLast? = l.getLast? := by
  intro k
  induction k with
  | zero => intro l _; rfl
  | succ k ih =>
    intro l h
    cases l with
    | nil => simp at h
    | cons x xs =>
      rw [List.drop_succ_cons] at h ⊢
      rw [ih xs h]
      cases xs with
      | nil => simp at h
      | cons y ys => exact (List.getLast?_cons_cons).symm

lemma osJoin_of_ne_nil {l : List (List Char)} (h : l ≠ []) : osJoin l = some (joinNE l) := by
  cases l with
  | nil => exact absurd rfl h
  | cons a p => rfl

lemma updateLevels_spec {w : Nat} {levels : List Nat} {sk : List (List Char)}
    {lv' : List Nat} {sk' : List (List Char)}
    (hlen : sk.length = levels.length)
    (hch : List.Chain' (fun a b => a > b) levels)
    (h : updateLevels w levels sk = some (lv', sk')) :
    List.Chain' (fun a b => a > b) lv' ∧ lv'.length - 1 ≤ sk'.length := by
  unfold updateLevels at h
  cases levels with
  | nil =>
    cases h
    exact ⟨List.chain'_singleton w, by simp⟩
  | cons t ls =>
    dsimp only at h
    by_cases hw : w > t
    · rw [if_pos hw] at h
      cases h
      refine ⟨List.chain'_cons.mpr ⟨hw, hch⟩, ?_⟩
      simp [hlen]
    · rw [if_neg hw] at h
      obtain ⟨k, hk, -, hhead⟩ :=
        popWhileLess_spec w (t :: ls) sk (by simp [hlen])
      rw [hk] at h
      dsimp only at h
      cases hd : (t :: ls).drop k with
      | nil =>
        rw [hd] at h
        cases h
        exact ⟨List.chain'_nil, by simp⟩
      | cons t' rest =>
        rw [hd] at h
        dsimp only at h
        have hch' : List.Chain' (fun a b => a > b) (t' :: rest) := hd ▸ hch.drop k
        have hlendrop : (sk.drop k).length = (t' :: rest).length := by
          have := congrArg List.length hd
          simp only [List.length_drop] at this ⊢
          omega
        by_cases hne : w ≠ t'
        · rw [if_pos hne] at h
          cases h
          have ht' : t' ≤ w := hhead t' (by rw [hd]; rfl)
          refine ⟨List.chain'_cons.mpr ⟨by omega, hch'⟩, ?_⟩
          simp [hlendrop]
        · rw [if_neg hne] at h
          cases h
          exact ⟨hch', by simp [hlendrop]⟩

lemma processLine_inv {uh : List Char → Option (List Char)} {st : ParseState}
    {l : List Char} {st' : ParseState} (hinv : StackInv st)
    (h : processLine uh st l = some st') : StackInv st' := by
  unfold processLine at h
  by_cases hb : isBlankLine l = true
  · rw [if_pos hb] at h
    cases h
    exact hinv
  · rw [if_neg hb] at h
    cases hu : updateLevels (indentLen l) st.indent_levels st.stack with
    | none => rw [hu] at h; exact absurd h (by simp)
    | some q =>
      obtain ⟨lv, sk⟩ := q
      rw [hu] at h
      dsimp only at h
      obtain ⟨hch, hle⟩ := updateLevels_spec hinv.2 hinv.1 hu
      cases lv with
      | nil => exact absurd h (by simp [finishLine])
      | cons t ls =>
        unfold finishLine at h
        dsimp only at h
        have hlen2 : (lineContent l :: sk.drop (sk.length - ((t :: ls).length - 1))).length =
            (t :: ls).length := by
          simp only [List.length_cons, List.length_drop] at hle ⊢
          omega
        by_cases hleaf : isRepoLeaf (lineContent l) = true
        · rw [if_pos hleaf] at h
          cases hj : osJoin (sk.drop (sk.length - ((t :: ls).length - 1))).reverse with
          | none => rw [hj] at h; exact absurd h (by simp)
          | some p =>
            rw [hj] at h
            cases h
            exact ⟨hch, hlen2⟩
        · rw [if_neg hleaf] at h
          cases hj : osJoin ((lineContent l ::
              sk.drop (sk.length - ((t :: ls).length - 1))).reverse) with
          | none => rw [hj] at h; exact absurd h (by simp)
          | some p =>
            rw [hj] at h
            cases h
            exact ⟨hch, hlen2⟩

lemma parseFold_inv (uh : List Char → Option (List Char)) :
    ∀ (lines : List (List Char)) (st₀ st : ParseState),
      StackInv st₀ → List.foldlM (processLine uh) st₀ lines = some st → StackInv st := by
  intro lines
  induction lines with
  | nil =>
    intro st₀ st h0 h
    rw [List.foldlM_nil] at h
    cases h
    exact h0
  | cons l ls ih =>
    intro st₀ st h0 h
    rw [List.foldlM_cons] at h
    cases hp : processLine uh st₀ l with
    | none => rw [hp] at h; exact absurd h (by simp)
    | some st₁ =>
      rw [hp] at h
      exact ih st₁ st (processLine_inv h0 hp) h

/-- C7: after every successfully processed line (equivalently, for every
line list whose fold succeeds), the indentation widths recorded on
`indent_levels` are strictly increasing from the stack's base to its top
(the Lean list keeps the top at its head, so its reverse is the Python
list base-to-top). -/
theorem indent_levels_strictly_increasing (uh : List Char → Option (List Char))
    (lines : List (List Char)) (st : ParseState)
    (h : parseFold uh lines = some st) :
    List.Chain' (· < ·) st.indent_levels.reverse := by
  have inv : StackInv st :=
    parseFold_inv uh lines initState st ⟨List.chain'_nil, rfl⟩ h
  exact List.chain'_reverse.mpr inv.1

theorem indent_levels_strictly_increasing_witness :
    parseFold (fun _ => none : List Char → Option (List Char))
        [("  a".toList), ("\tb".toList)] =
      some ⟨{("a/b".toList), ("a".toList)}, [], [("b".toList), ("a".toList)], [4, 2]⟩ ∧
      List.Chain' (· < ·) ([4, 2] : List Nat).reverse :=
  ⟨rfl,
    indent_levels_strictly_increasing (fun _ => none : List Char → Option (List Char))
      [("  a".toList), ("\tb".toList)]
      ⟨{("a/b".toList), ("a".toList)}, [], [("b".toList), ("a".toList)], [4, 2]⟩ rfl⟩

lemma finishLine_isSome (uh : List Char → Option (List Char)) (st : ParseState)
    (content : List Char) (a b : Nat) (lv : List Nat) (sk : List (List Char))
    (hsk : (b :: lv).length ≤ sk.length) :
    ∃ st', finishLine uh st content (a :: b :: lv) sk = some st' := by
  unfold finishLine
  dsimp only
  have h1 : (sk.drop (sk.length - ((a :: b :: lv).length - 1))).length = (b :: lv).length := by
    simp only [List.length_drop, List.length_cons] at hsk ⊢
    omega
  have h2 : sk.drop (sk.length - ((a :: b :: lv).length - 1)) ≠ [] := by
    intro e
    rw [e] at h1
    simp at h1
  by_cases hleaf : isRepoLeaf content = true
  · rw [if_pos hleaf, osJoin_of_ne_nil (by simpa using h2)]
    exact ⟨_, rfl⟩
  · rw [if_neg hleaf, osJoin_of_ne_nil (by simp)]
    exact ⟨_, rfl⟩

/-- C1 (amended): the lenient re-leveling works for any non-blank line
whose indentation width is strictly greater than the base (first) width
on the indent stack, seen or unseen: processing the line returns a new
state instead of raising.  A dedent to a width strictly below every
width on the stack is NOT handled: it raises `IndexError` (see the
counterexample theorem). -/
theorem dedent_above_base_no_crash (uh : List Char → Option (List Char))
    (st : ParseState) (l : List Char) (b : Nat)
    (hinv : StackInv st)
    (hbase : st.indent_levels.getLast? = some b)
    (hb : isBlankLine l = false)
    (hlt : b < indentLen l) :
    ∃ st', processLine uh st l = some st' := by
  unfold processLine
  rw [if_neg (by simp [hb])]
  obtain ⟨hch, hlen⟩ := hinv
  cases hL : st.indent_levels with
  | nil => rw [hL] at hbase; simp at hbase
  | cons t ls =>
    by_cases hw : indentLen l > t
    · have hu : updateLevels (indentLen l) (t :: ls) st.stack =
          some (indentLen l :: t :: ls, st.stack) := by
        unfold updateLevels
        dsimp only
        rw [if_pos hw]
      rw [hu]
      dsimp only
      exact finishLine_isSome uh st (lineContent l) _ t ls st.stack
        (le_of_eq (by rw [hlen, hL]))
    · have hlen' : (t :: ls).length = st.stack.length := by rw [← hL, hlen]
      obtain ⟨k, hk, htake, hhead⟩ := popWhileLess_spec (indentLen l) (t :: ls) st.stack hlen'
      have hdropne : (t :: ls).drop k ≠ [] := by
        intro e
        have hkk : (t :: ls).length ≤ k := by
          have := congrArg List.length e
          simp only [List.length_drop, List.length_nil] at this
          omega
        have hbmem : b ∈ (t :: ls).take k := by
          rw [List.take_of_length_le hkk]
          exact List.mem_of_getLast?_eq_some (hL ▸ hbase)
        have := htake b hbmem
        omega
      cases hd : (t :: ls).drop k with
      | nil => exact absurd hd hdropne
      | cons t' rest =>
        have ht'w : t' ≤ indentLen l := hhead t' (by rw [hd]; rfl)
        have hskL : (st.stack.drop k).length = (t' :: rest).length := by
          have := congrArg List.length hd
          simp only [List.length_drop] at this ⊢
          omega
        by_cases hne : indentLen l ≠ t'
        · have hu : updateLevels (indentLen l) (t :: ls) st.stack =
              some (indentLen l :: t' :: rest, st.stack.drop k) := by
            unfold updateLevels
            dsimp only
            rw [if_neg hw, hk]
            dsimp only
            rw [hd]
            dsimp only
            rw [if_pos hne]
          rw [hu]
          dsimp only
          exact finishLine_isSome uh st (lineContent l) _ t' rest (st.stack.drop k)
            (le_of_eq hskL.symm)
        · have hgl : (t' :: rest).getLast? = some b := by
            rw [← hd, getLast?_drop_ne_nil k (t :: ls) hdropne]
            exact hL ▸ hbase
          cases rest with
          | nil =>
            simp only [List.getLast?_singleton, Option.some.injEq] at hgl
            omega
          | cons r rest₂ =>
            have hu : updateLevels (indentLen l) (t :: ls) st.stack =
                some (t' :: r :: rest₂, st.stack.drop k) := by
              unfold updateLevels
              dsimp only
              rw [if_neg hw, hk]
              dsimp only
              rw [hd]
              dsimp only
              rw [if_neg hne]
            rw [hu]
            dsimp only
            refine finishLine_isSome uh st (lineContent l) t' r rest₂ (st.stack.drop k) ?_
            rw [hskL]
            simp

/-- C1 (counterexample): on the two-line file `"  a"`, `"b"`, the second
line dedents to width 0, strictly below the first line's width 2; every
indent level is popped, and since Python then compares
`len(stack) > len(indent_levels) - 1` as `0 > -1`, `stack.pop()` is
attempted on the empty stack and raises `IndexError`: the parser crashes
instead of re-leveling. -/
theorem dedent_below_base_crashes :
    get_dirs_and_repos_from_settings (fun _ => none : List Char → Option (List Char))
      [("  a".toList), ("b".toList)] = none := by
  decide

theorem dedent_above_base_no_crash_witness :
    StackInv ⟨{("a/b".toList), ("a".toList)}, [], [("b".toList), ("a".toList)], [4, 2]⟩ ∧
      (⟨{("a/b".toList), ("a".toList)}, [], [("b".toList), ("a".toList)], [4, 2]⟩ :
          ParseState).indent_levels.getLast? = some 2 ∧
      isBlankLine ("   c".toList) = false ∧
      2 < indentLen ("   c".toList) ∧
      ∃ st', processLine (fun _ => none : List Char → Option (List Char))
          ⟨{("a/b".toList), ("a".toList)}, [], [("b".toList), ("a".toList)], [4, 2]⟩
          ("   c".toList) = some st' :=
  ⟨⟨List.chain'_cons.mpr ⟨by omega, List.chain'_singleton 2⟩, rfl⟩, by decide, by decide,
    by decide,
    dedent_above_base_no_crash (fun _ => none : List Char → Option (List Char))
      ⟨{("a/b".toList), ("a".toList)}, [], [("b".toList), ("a".toList)], [4, 2]⟩
      ("   c".toList) 2
      ⟨List.chain'_cons.mpr ⟨by omega, List.chain'_singleton 2⟩, rfl⟩ (by decide) (by decide)
      (by decide)⟩

lemma chainFold (uh : List Char → Option (List Char)) :
    ∀ (ls : List (List Char)) (st : ParseState) (pref : List (List Char)) (ws : List Nat),
      pref ≠ [] →
      st.stack = pref.reverse →
      st.indent_levels = ws.reverse →
      ws.length = pref.length →
      (∀ l ∈ ls, isBlankLine l = false) →
      List.Chain' (· < ·) (ws ++ ls.map indentLen) →
      List.foldlM (processLine uh) st ls =
        some ⟨st.dirs_to_create ∪ (chainPaths uh pref ls).toFinset,
              st.git_repos ++ chainRepos uh pref ls,
              (pref ++ ls.map lineContent).reverse,
              (ws ++ ls.map indentLen).reverse⟩ := by
  intro ls
  induction ls with
  | nil =>
    intro st pref ws hpne hstk hlv hwlen hnb hch
    obtain ⟨d, r, sk, lv⟩ := st
    rw [List.foldlM_nil]
    simp only [chainPaths, chainRepos, List.toFinset_nil, Finset.union_empty,
      List.append_nil, List.map_nil] at hstk hlv ⊢
    simp_all
  | cons l ls ih =>
    intro st pref ws hpne hstk hlv hwlen hnb hch
    have hnbl : isBlankLine l = false := hnb l (List.mem_cons_self l ls)
    have hwne : ws ≠ [] := by
      intro e
      rw [e] at hwlen
      exact hpne (List.length_eq_zero.mp hwlen.symm)
    cases hrev : ws.reverse with
    | nil => exact absurd (List.reverse_eq_nil_iff.mp hrev) hwne
    | cons t tl =>
      have hw : t < indentLen l := by
        have h3 := (List.chain'_append.mp hch).2.2
        apply h3
        · rw [List.getLast?_eq_head?_reverse, hrev]
          rfl
        · simp
      have hwsl : ws.length = tl.length + 1 := by
        have := congrArg List.length hrev
        simpa using this
      have hstlen : st.stack.length = tl.length + 1 := by
        rw [hstk, List.length_reverse]
        omega
      have hu : updateLevels (indentLen l) st.indent_levels st.stack =
          some (indentLen l :: t :: tl, st.stack) := by
        rw [hlv, hrev]
        unfold updateLevels
        dsimp only
        rw [if_pos hw]
      have hz : st.stack.length - ((indentLen l :: t :: tl).length - 1) = 0 := by
        simp only [List.length_cons]
        omega
      have hchtail : List.Chain' (· < ·) ((ws ++ [indentLen l]) ++ ls.map indentLen) := by
        have h4 := hch
        simp only [List.map_cons] at h4
        rwa [List.append_cons] at h4
      by_cases hleaf : isRepoLeaf (lineContent l) = true
      · have hp : processLine uh st l =
            some ⟨insert (expanduser uh (joinNE pref)) st.dirs_to_create,
              st.git_repos ++ [⟨expanduser uh (joinNE pref), lineContent l⟩],
              lineContent l :: pref.reverse, indentLen l :: t :: tl⟩ := by
          unfold processLine
          rw [if_neg (by simp [hnbl])]
          rw [hu]
          dsimp only
          unfold finishLine
          dsimp only
          rw [hz, List.drop_zero, if_pos hleaf, hstk, List.reverse_reverse,
            osJoin_of_ne_nil hpne]
        rw [List.foldlM_cons, hp]
        show List.foldlM (processLine uh) _ ls = _
        rw [ih _ (pref ++ [lineContent l]) (ws ++ [indentLen l]) (by simp)
          (by simp) (by simp [hrev]) (by simp [hwlen])
          (fun x hx => hnb x (List.mem_cons_of_mem _ hx)) hchtail]
        simp only [chainPaths, chainRepos, hleaf, if_true, List.toFinset_cons,
          Finset.union_insert, Finset.insert_union, List.append_assoc,
          List.singleton_append, List.map_cons, List.cons_append, List.nil_append]
      · have hp : processLine uh st l =
            some ⟨insert (expanduser uh (joinNE (pref ++ [lineContent l]))) st.dirs_to_create,
              st.git_repos, lineContent l :: pref.reverse, indentLen l :: t :: tl⟩ := by
          unfold processLine
          rw [if_neg (by simp [hnbl])]
          rw [hu]
          dsimp only
          unfold finishLine
          dsimp only
          rw [hz, List.drop_zero, if_neg hleaf, hstk, List.reverse_cons,
            List.reverse_reverse, osJoin_of_ne_nil (by simp)]
        rw [List.foldlM_cons, hp]
        show List.foldlM (processLine uh) _ ls = _
        rw [ih _ (pref ++ [lineContent l]) (ws ++ [indentLen l]) (by simp)
          (by simp) (by simp [hrev]) (by simp [hwlen])
          (fun x hx => hnb x (List.mem_cons_of_mem _ hx)) hchtail]
        simp only [chainPaths, chainRepos, hleaf, if_false, Bool.false_eq_true,
          List.toFinset_cons, Finset.union_insert, Finset.insert_union,
          List.append_assoc, List.singleton_append, List.map_cons, List.cons_append,
          List.nil_append]

lemma chainRepos_path_mem (uh : List Char → Option (List Char)) :
    ∀ (ls pref : List (List Char)), ∀ r ∈ chainRepos uh pref ls,
      r.path ∈ chainPaths uh pref ls := by
  intro ls
  induction ls with
  | nil =>
    intro pref r hr
    simp [chainRepos] at hr
  | cons l t ih =>
    intro pref r hr
    by_cases hleaf : isRepoLeaf (lineContent l) = true
    · simp only [chainRepos, chainPaths, hleaf, if_true] at hr ⊢
      rcases List.mem_cons.mp hr with h1 | h1
      · exact List.mem_cons.mpr (Or.inl (by rw [h1]))
      · exact List.mem_cons_of_mem _ (ih _ r h1)
    · simp only [chainRepos, chainPaths, hleaf, if_false, Bool.false_eq_true] at hr ⊢
      exact List.mem_cons_of_mem _ (ih _ r hr)

/-- C6: for a settings file whose non-blank lines have strictly
increasing indentation (each nested line strictly deeper than its
parent, the preceding line) and whose first line is a directory segment,
the parser succeeds; the Directory Set is exactly the finite set of one
joined-and-expanded path per line's ancestor chain (the chain including
the line itself for a directory, excluding the leaf for a repository),
and the descriptor list carries, for each repository leaf, the path-join
of its ancestor chain excluding the leaf; moreover every descriptor's
parent path is a member of the Directory Set. -/
theorem nested_chain_parse (uh : List Char → Option (List Char))
    (l₀ : List Char) (rest : List (List Char))
    (h₀ : isBlankLine l₀ = false)
    (hd₀ : isRepoLeaf (lineContent l₀) = false)
    (hrest : ∀ l ∈ rest, isBlankLine l = false)
    (hinc : List.Chain' (· < ·) (indentLen l₀ :: rest.map indentLen)) :
    get_dirs_and_repos_from_settings uh (l₀ :: rest) =
      some ((expanduser uh (joinNE [lineContent l₀]) ::
              chainPaths uh [lineContent l₀] rest).toFinset,
            chainRepos uh [lineContent l₀] rest) ∧
      ∀ r ∈ chainRepos uh [lineContent l₀] rest,
        r.path ∈ (expanduser uh (joinNE [lineContent l₀]) ::
              chainPaths uh [lineContent l₀] rest).toFinset := by
  have hp : processLine uh initState l₀ =
      some ⟨{expanduser uh (joinNE [lineContent l₀])}, [], [lineContent l₀], [indentLen l₀]⟩ := by
    unfold processLine
    rw [if_neg (by simp [h₀])]
    show finishLine uh initState (lineContent l₀) [indentLen l₀] [] = _
    unfold finishLine
    dsimp only
    rw [if_neg (by simp [hd₀])]
    rfl
  constructor
  · unfold get_dirs_and_repos_from_settings parseFold
    rw [List.foldlM_cons, hp]
    show (List.foldlM (processLine uh) _ rest).map _ = _
    rw [chainFold uh rest _ [lineContent l₀] [indentLen l₀] (by simp) rfl rfl rfl hrest
      (by simpa using hinc)]
    simp [Finset.insert_eq]
  · intro r hr
    rw [List.toFinset_cons, Finset.mem_insert]
    exact Or.inr (List.mem_toFinset.mpr (chainRepos_path_mem uh rest [lineContent l₀] r hr))

theorem nested_chain_parse_witness :
    isBlankLine ("proj".toList) = false ∧
      isRepoLeaf (lineContent ("proj".toList)) = false ∧
      (∀ l ∈ [("    https://git.addr/example2.git".toList)], isBlankLine l = false) ∧
      List.Chain' (· < ·) (indentLen ("proj".toList) ::
        ([("    https://git.addr/example2.git".toList)]).map indentLen) ∧
      (get_dirs_and_repos_from_settings (fun _ => none : List Char → Option (List Char))
          (("proj".toList) :: [("    https://git.addr/example2.git".toList)]) =
        some ((expanduser (fun _ => none) (joinNE [lineContent ("proj".toList)]) ::
                chainPaths (fun _ => none) [lineContent ("proj".toList)]
                  [("    https://git.addr/example2.git".toList)]).toFinset,
              chainRepos (fun _ => none) [lineContent ("proj".toList)]
                [("    https://git.addr/example2.git".toList)]) ∧
        ∀ r ∈ chainRepos (fun _ => none) [lineContent ("proj".toList)]
            [("    https://git.addr/example2.git".toList)],
          r.path ∈ (expanduser (fun _ => none) (joinNE [lineContent ("proj".toList)]) ::
                chainPaths (fun _ => none) [lineContent ("proj".toList)]
                  [("    https://git.addr/example2.git".toList)]).toFinset) :=
  ⟨by decide, by decide, by decide,
    List.chain'_cons.mpr ⟨by decide, List.chain'_singleton _⟩,
    nested_chain_parse (fun _ => none : List Char → Option (List Char))
      ("proj".toList) [("    https://git.addr/example2.git".toList)]
      (by decide) (by decide) (by decide)
      (List.chain'_cons.mpr ⟨by decide, List.chain'_singleton _⟩)⟩

end GitInit
